import Mathlib

/-!
Verification of the `ftp_relay` utility (tds_relay.py, lib/relayftp.py,
lib/relaysftp.py, lib/relay_transmission_error.py).

The Python sources are shallowly embedded below.  File names are plain
strings over POSIX separators; the remote server namespace is a list of
file names; injected failures of the transport and of the local
filesystem are explicit boolean oracles.  Python exceptions are modelled
with `Except PyErr`.
-/

namespace FtpRelay

/-- Kinds of Python exception that the embedded code can raise or
propagate.  `osError` covers `OSError`/`FileNotFoundError` from
`os.rename`, `typeError` the `TypeError: exceptions must derive from
BaseException` produced by `raise "..."`, `nameError` a reference to an
undefined variable, `tdsUnmetSpec` is `TdsRelayUnmetSpecError` and
`connError` any exception raised by the underlying FTP/SFTP session. -/
inductive PyErr where
  | osError
  | relayTransmissionError
  | typeError
  | nameError
  | tdsUnmetSpec
  | tdsRelayError
  | connError
deriving DecidableEq, Repr

/-! ## Regular-expression machinery for `incremental_file_name`

`re.search("-(\\d+)\\.(.*)", s)` finds the leftmost position where a
`'-'` is followed by a non-empty digit run whose maximal extent is
immediately followed by `'.'`; group 1 is the digit run and group 2 the
remainder of the string after that dot (names are assumed free of
newlines, and digits are ASCII). -/

/-- Does the pattern `-(\d+)\.(.*)` match starting exactly at the
character `c` followed by `cs`? -/
def matchHere (c : Char) (cs : List Char) : Bool :=
  c == '-' && !(cs.takeWhile Char.isDigit).isEmpty &&
    ((cs.dropWhile Char.isDigit).head? == some '.')

/-- Leftmost match of `-(\d+)\.(.*)`: returns `(pre, digits, rest)` with
the input equal to `pre ++ '-' :: digits ++ '.' :: rest`. -/
def reSearch : List Char → Option (List Char × List Char × List Char)
  | [] => none
  | c :: cs =>
    if matchHere c cs then
      some ([], cs.takeWhile Char.isDigit, (cs.dropWhile Char.isDigit).tail)
    else
      match reSearch cs with
      | some (p, d, r) => some (c :: p, d, r)
      | none => none

/-- `int()` on a digit string (Python accepts leading zeros). -/
def digitsToNat (l : List Char) : Nat :=
  l.foldl (fun a c => a * 10 + (c.toNat - '0'.toNat)) 0

/-! ## POSIX path helpers (`os.path` / `pathlib.PurePosixPath`) -/

/-- `os.path.basename`: the part after the last `'/'`. -/
def basename (s : String) : String :=
  String.mk ((s.data.reverse.takeWhile (fun c => c ≠ '/')).reverse)

/-- Strip trailing `'/'` characters. -/
def rstripSlash (l : List Char) : List Char :=
  (l.reverse.dropWhile (fun c => c == '/')).reverse

/-- `os.path.dirname`: everything up to the last `'/'`; trailing slashes
are stripped unless the head consists only of slashes. -/
def dirname (s : String) : String :=
  let bl := (s.data.reverse.takeWhile (fun c => c ≠ '/')).length
  let head := s.data.take (s.data.length - bl)
  if head.isEmpty ∨ head.all (fun c => c == '/') then String.mk head
  else String.mk (rstripSlash head)

/-- `os.path.join(a, b)` for POSIX paths (two-argument form). -/
def joinPath (a b : String) : String :=
  if b.data.head? = some '/' then b
  else if a.data = [] ∨ a.data.getLast? = some '/' then a ++ b
  else a ++ "/" ++ b

/-- `PurePosixPath(s).name`: basename after dropping trailing slashes. -/
def pyPathName (s : String) : String :=
  basename (String.mk (rstripSlash s.data))

/-- Index of the last `'.'` in a name, if any. -/
def rfindDot : List Char → Option Nat
  | [] => none
  | c :: cs =>
    match rfindDot cs with
    | some i => some (i + 1)
    | none => if c == '.' then some 0 else none

/-- `PurePosixPath` `stem`/`suffix` of a final path component: split at
the last dot when it is neither the first nor the last character,
otherwise the suffix is empty. -/
def pyStemSuffix (name : List Char) : List Char × List Char :=
  match rfindDot name with
  | none => (name, [])
  | some i =>
    if 0 < i ∧ i < name.length - 1 then (name.take i, name.drop i)
    else (name, [])

/-! ## `incremental_file_name` (lib/relay_transmission_error.py) -/

/-- `incremental_file_name(original_fname)`.

The regex is searched on the *full* input, while `re.sub` rewrites only
the basename; when the match lies in the directory part the basename is
left unchanged.  If the name has no `-<digits>.` occurrence, the
`PurePosixPath` stem gets `-1` appended before the suffix.  In the dead
branch where `new_name` is falsy the source reads the misspelled
`orignal_fname`, an undefined variable, hence `NameError`. -/
def incremental_file_name (original_fname : String) : Except PyErr String :=
  let m := reSearch original_fname.data
  let bfn := basename original_fname
  let new_name : String :=
    match m with
    | some (_, ds, g2) =>
      match reSearch bfn.data with
      | some (pre, _, _) =>
        String.mk pre ++ "-" ++ toString (digitsToNat ds + 1) ++ "." ++ String.mk g2
      | none => bfn
    | none =>
      let nm := (pyPathName original_fname).data
      String.mk (pyStemSuffix nm).1 ++ "-1" ++ String.mk (pyStemSuffix nm).2
  if new_name = "" then Except.error PyErr.nameError
  else Except.ok (joinPath (dirname original_fname) new_name)

/-- Iterate `incremental_file_name` from a starting name. -/
def incIterE (s : String) : Nat → Except PyErr String
  | 0 => Except.ok s
  | n + 1 => (incIterE s n).bind incremental_file_name

/-! ## Transport layer (lib/relayftp.py, lib/relaysftp.py)

The remote namespace is a `List String` of file names; it changes only
through the operations the embedded code performs.  Failure injection:
each remote call and each local `os.rename` has a boolean oracle that
decides whether the underlying operation raises. -/

/-- `STOR`/`put` of a new remote file: an existing name is overwritten. -/
def listPut (srv : List String) (x : String) : List String :=
  if x ∈ srv then srv else srv ++ [x]

/-- Result of the `while true_file in files_on_server` /
`while self.ftp_conn.exists(true_file)` collision loop. -/
inductive LoopRes where
  | found (name : String)
  | exc (e : PyErr)
  | fuelOut
deriving DecidableEq, Repr

/-- Injected failures for `RelayFtp.ftp_upload`: `nlst k` decides whether
the `k`-th `nlst()` call raises; the other fields cover `delete`,
`storbinary`, the server-side `rename`, and the two local `os.rename`
calls (forward and back). -/
structure FtpFaults where
  nlst : Nat → Bool
  del : Bool
  stor : Bool
  rrename : Bool
  lrenFwd : Bool
  lrenBack : Bool

/-- Injected failures for `RelaySftp.ftp_upload`: `exq k` decides whether
the `k`-th `exists()` call raises. -/
structure SftpFaults where
  exq : Nat → Bool
  unlink : Bool
  put : Bool
  rrename : Bool
  lrenFwd : Bool
  lrenBack : Bool

/-- The FTP collision loop.  `cur` is the listing currently held in
`files_on_server` (the pre-delete listing on entry), `next` the listing
any later `nlst()` returns, `i` the index of the next `nlst()` call. -/
def ftpLoop (next : List String) (nlstF : Nat → Bool) :
    List String → String → Nat → Nat → LoopRes
  | cur, name, i, fuel =>
    if name ∈ cur then
      match fuel with
      | 0 => LoopRes.fuelOut
      | fuel + 1 =>
        match incremental_file_name name with
        | Except.error e => LoopRes.exc e
        | Except.ok n' =>
          if nlstF i then LoopRes.exc PyErr.connError
          else ftpLoop next nlstF next n' (i + 1) fuel
    else LoopRes.found name

/-- The SFTP collision loop: every membership test is a fresh `exists()`
call (index `i`), against the live server namespace `srv`. -/
def sftpLoop (srv : List String) (exF : Nat → Bool) :
    String → Nat → Nat → LoopRes
  | name, i, fuel =>
    if exF i then LoopRes.exc PyErr.connError
    else if name ∈ srv then
      match fuel with
      | 0 => LoopRes.fuelOut
      | fuel + 1 =>
        match incremental_file_name name with
        | Except.error e => LoopRes.exc e
        | Except.ok n' => sftpLoop srv exF n' (i + 1) fuel
    else LoopRes.found name

/-- Observable result of one `ftp_upload` call.  `outcome` is the value
returned to the caller (`Except.error` when an exception escapes the
call), `localName` the basename under which the local file sits after
the call, `storedAs` the canonical remote name when the store plus
server-side rename completed, `remote` the final remote namespace. -/
structure UploadResult where
  outcome : Except PyErr Bool
  localName : String
  storedAs : Option String
  remote : List String
deriving Repr

/-- `RelayFtp.ftp_upload(file)` over remote namespace `srv` with faults
`f`.  The collision loop is given `fuel`; `none` models the loop never
finding a free name (the Python loop would not terminate).

Every exception raised in the `try` block is re-raised as
`RelayTransmissionError` but then swallowed by the `return result` in
the `finally` block, so the call returns `False` — except when the
`finally` block's own `os.rename(new_name, file)` raises: after a failed
forward rename the source `new_name` does not exist, and with an
injected failure of the rename-back itself, the `OSError` escapes. -/
def RelayFtp.ftp_upload (srv : List String) (f : FtpFaults) (file : String)
    (fuel : Nat) : Option UploadResult :=
  let bfn := basename file
  let tmp := bfn ++ ".tmp"
  if f.nlst 0 then
    some ⟨Except.ok false, bfn, none, srv⟩
  else if tmp ∈ srv ∧ f.del then
    some ⟨Except.ok false, bfn, none, srv⟩
  else
    let srv1 := if tmp ∈ srv then srv.erase tmp else srv
    match ftpLoop srv1 f.nlst srv bfn 1 fuel with
    | LoopRes.fuelOut => none
    | LoopRes.exc _ => some ⟨Except.ok false, bfn, none, srv1⟩
    | LoopRes.found tf =>
      if tf = bfn then
        if f.stor then some ⟨Except.ok false, bfn, none, srv1⟩
        else
          let srv2 := listPut srv1 tmp
          if f.rrename then some ⟨Except.ok false, bfn, none, srv2⟩
          else some ⟨Except.ok true, bfn, some bfn, srv2.erase tmp ++ [bfn]⟩
      else if f.lrenFwd then
        some ⟨Except.error PyErr.osError, bfn, none, srv1⟩
      else
        let tmp2 := tf ++ ".tmp"
        let after : Bool × Option String × List String :=
          if f.stor then (false, none, srv1)
          else
            let srv2 := listPut srv1 tmp2
            if f.rrename then (false, none, srv2)
            else (true, some tf, srv2.erase tmp2 ++ [tf])
        if f.lrenBack then
          some ⟨Except.error PyErr.osError, tf, after.2.1, after.2.2⟩
        else
          some ⟨Except.ok after.1, bfn, after.2.1, after.2.2⟩

/-- `RelaySftp.ftp_upload(file)`: same contract as the FTP variant, with
`exists`/`unlink`/`put` in place of `nlst`/`delete`/`storbinary`. -/
def RelaySftp.ftp_upload (srv : List String) (f : SftpFaults) (file : String)
    (fuel : Nat) : Option UploadResult :=
  let bfn := basename file
  let tmp := bfn ++ ".tmp"
  if f.exq 0 then
    some ⟨Except.ok false, bfn, none, srv⟩
  else if tmp ∈ srv ∧ f.unlink then
    some ⟨Except.ok false, bfn, none, srv⟩
  else
    let srv1 := if tmp ∈ srv then srv.erase tmp else srv
    match sftpLoop srv1 f.exq bfn 1 fuel with
    | LoopRes.fuelOut => none
    | LoopRes.exc _ => some ⟨Except.ok false, bfn, none, srv1⟩
    | LoopRes.found tf =>
      if tf = bfn then
        if f.put then some ⟨Except.ok false, bfn, none, srv1⟩
        else
          let srv2 := listPut srv1 tmp
          if f.rrename then some ⟨Except.ok false, bfn, none, srv2⟩
          else some ⟨Except.ok true, bfn, some bfn, srv2.erase tmp ++ [bfn]⟩
      else if f.lrenFwd then
        some ⟨Except.error PyErr.osError, bfn, none, srv1⟩
      else
        let tmp2 := tf ++ ".tmp"
        let after : Bool × Option String × List String :=
          if f.put then (false, none, srv1)
          else
            let srv2 := listPut srv1 tmp2
            if f.rrename then (false, none, srv2)
            else (true, some tf, srv2.erase tmp2 ++ [tf])
        if f.lrenBack then
          some ⟨Except.error PyErr.osError, tf, after.2.1, after.2.2⟩
        else
          some ⟨Except.ok after.1, bfn, after.2.1, after.2.2⟩

/-- `RelayFtp.ftp_open`: any exception while connecting is re-raised as
`RelayTransmissionError`. -/
def RelayFtp.ftp_open (openFails : Bool) : Except PyErr Unit :=
  if openFails then Except.error PyErr.relayTransmissionError else Except.ok ()

/-- `RelaySftp.ftp_open`: any exception while connecting is re-raised as
`RelayTransmissionError`. -/
def RelaySftp.ftp_open (openFails : Bool) : Except PyErr Unit :=
  if openFails then Except.error PyErr.relayTransmissionError else Except.ok ()

/-- `RelayFtp.ftp_close`: a failing `quit()` on an open connection is
re-raised as `RelayTransmissionError`. -/
def RelayFtp.ftp_close (connOpen closeFails : Bool) : Except PyErr Unit :=
  if connOpen && closeFails then Except.error PyErr.relayTransmissionError
  else Except.ok ()

/-- `RelaySftp.ftp_close`: on a failing `close()` the source executes
`raise "Exception closing ..." from ex` — the operand is a `str`, not an
exception, so Python 3 raises `TypeError: exceptions must derive from
BaseException` instead of `RelayTransmissionError`. -/
def RelaySftp.ftp_close (connOpen closeFails : Bool) : Except PyErr Unit :=
  if connOpen && closeFails then Except.error PyErr.typeError
  else Except.ok ()

/-! ## Staging-directory scan (TdsRelay.get_file_list) -/

/-- One regular file of the staging directory: its name and the
modification age in seconds (`time.time() - st.st_mtime`) at scan
time. -/
structure FileEntry where
  name : String
  age : Int
deriving DecidableEq, Repr

/-- `suf` is a suffix of `l` (Python `str.endswith`). -/
def endsWithL (l suf : List Char) : Bool := decide (suf <:+ l)

/-- `glob("*.*")`: the name contains a dot and, as for every glob
pattern not starting with a dot, hidden files are skipped. -/
def permMatch (n : String) : Bool :=
  !(n.data.head? == some '.') && n.data.contains '.'

/-- `glob("*.dat")`: the name ends in `.dat` and hidden files are
skipped. -/
def strictMatch (n : String) : Bool :=
  !(n.data.head? == some '.') && endsWithL n.data ".dat".data

/-- `TdsRelay.validate_transfer_info(file)` given the customer string
extracted from the archive (`getCust`, the result of
`get_customer_info_from_dat`) and the configured sections' customer
lists.  For any non-empty section list the membership test
`c_dat not in customer` references the undefined name `customer` (the
config tuple binds `customers`), so the first loop iteration raises
`NameError` before any `return False` can execute. -/
def validate_transfer_info (getCust : String → Except PyErr (Option String))
    (sections : List (List String)) (file : String) : Except PyErr Bool :=
  match getCust file with
  | Except.error e => Except.error e
  | Except.ok c =>
    let c_dat := c.getD ""
    match sections with
    | [] => Except.ok true
    | _ :: _ =>
      let _ := c_dat
      Except.error PyErr.nameError

/-- The per-file body of `get_file_list`'s loop over the globbed
entries: the age gate, the redundant strict-mode `.dat` check, and the
customer validation whose `TdsRelayUnmetSpecError` outcomes skip the
file while any other exception escapes. -/
def get_file_list_go (fd : String) (allPass : Bool) (delay : Int)
    (noValidate : Bool) (getCust : String → Except PyErr (Option String))
    (sections : List (List String)) : List FileEntry → Except PyErr (List String)
  | [] => Except.ok []
  | e :: rest =>
    let file := joinPath fd e.name
    if e.age < delay then get_file_list_go fd allPass delay noValidate getCust sections rest
    else if !allPass && !endsWithL file.data ".dat".data then
      get_file_list_go fd allPass delay noValidate getCust sections rest
    else if noValidate then
      (get_file_list_go fd allPass delay noValidate getCust sections rest).map (file :: ·)
    else
      match validate_transfer_info getCust sections file with
      | Except.error PyErr.tdsUnmetSpec =>
        get_file_list_go fd allPass delay noValidate getCust sections rest
      | Except.error e' => Except.error e'
      | Except.ok true =>
        (get_file_list_go fd allPass delay noValidate getCust sections rest).map (file :: ·)
      | Except.ok false =>
        match sections with
        | [] =>
          (get_file_list_go fd allPass delay noValidate getCust sections rest).map (file :: ·)
        | _ :: _ =>
          match getCust file with
          | Except.error PyErr.tdsUnmetSpec =>
            get_file_list_go fd allPass delay noValidate getCust sections rest
          | Except.error e' => Except.error e'
          | Except.ok _ =>
            get_file_list_go fd allPass delay noValidate getCust sections rest

/-- `TdsRelay.get_file_list` over the directory listing `dir` of the
forward directory `fd`.  In permissive mode (`all_pass`) the glob is
`*.*` followed by a `.tmp` filter on the full path; in strict mode the
glob is `*.dat`. -/
def get_file_list (fd : String) (allPass : Bool) (delay : Int)
    (noValidate : Bool) (getCust : String → Except PyErr (Option String))
    (sections : List (List String)) (dir : List FileEntry) :
    Except PyErr (List String) :=
  let globbed :=
    if allPass then
      (dir.filter (fun e => permMatch e.name)).filter
        (fun e => !endsWithL (joinPath fd e.name).data ".tmp".data)
    else dir.filter (fun e => strictMatch e.name)
  get_file_list_go fd allPass delay noValidate getCust sections globbed

/-! ## Destination loop (TdsRelay.run_on_subfolder) -/

/-- Where a staged file currently is: still in the staging directory, in
`quarantined/`, in `transferred/`, or deleted. -/
inductive Loc where
  | staging
  | quarantined
  | archived
  | removed
deriving DecidableEq, Repr

/-- `try_to_send_by_sections[sect]` and `did_sent_by_sections[sect]` for
one config section (section names are unique in a configparser file). -/
structure SectionAudit where
  sect : String
  tried : List String
  sent : List String
deriving DecidableEq, Repr

/-- Oracles for one run: the boolean-or-exception result of
`ftp_upload` per (section, file), whether `ftp_open` raises for a
section, and whether the backup `shutil.move`/`makedirs` raises for a
file. -/
structure RunOracles where
  upload : String → String → Except PyErr Bool
  openFail : String → Bool
  backupFail : String → Bool

/-- `TdsRelay.quarantine_file`: the file is moved into `quarantined/`
only if it still exists at its staging path. -/
def quarantineUpd (loc : String → Loc) (file : String) : String → Loc :=
  fun x => if x = file ∧ loc file = Loc.staging then Loc.quarantined else loc x

/-- Set a file's location if it still exists at its staging path. -/
def moveUpd (loc : String → Loc) (file : String) (l : Loc) : String → Loc :=
  fun x => if x = file ∧ loc file = Loc.staging then l else loc x

/-- The inner `for file in self.dat_file_list` loop of
`run_on_subfolder` for one section.  State: file locations, the
section's `tried`/`sent` audit lists, and the accumulated
`quarantine_files`.  A file is appended to `tried` before its upload,
to `sent` only on a `True` result; the post-action (archive when
`backup`, else remove) runs only when `shouldPost` and only if the file
still exists; any failure result or exception sends the file to
quarantine. -/
def processFiles (upload : String → Except PyErr Bool) (backupFail : String → Bool)
    (backup shouldPost : Bool) :
    List String → (String → Loc) → List String → List String → List String →
    (String → Loc) × List String × List String × List String
  | [], loc, tried, sent, qf => (loc, tried, sent, qf)
  | file :: rest, loc, tried, sent, qf =>
    let tried' := tried ++ [file]
    match upload file with
    | Except.ok true =>
      let sent' := sent ++ [file]
      if shouldPost then
        if backup then
          if backupFail file ∧ loc file = Loc.staging then
            processFiles upload backupFail backup shouldPost rest
              (quarantineUpd loc file) tried' sent' (qf ++ [file])
          else
            processFiles upload backupFail backup shouldPost rest
              (moveUpd loc file Loc.archived) tried' sent' qf
        else
          processFiles upload backupFail backup shouldPost rest
            (moveUpd loc file Loc.removed) tried' sent' qf
      else processFiles upload backupFail backup shouldPost rest loc tried' sent' qf
    | Except.ok false =>
      processFiles upload backupFail backup shouldPost rest
        (quarantineUpd loc file) tried' sent (qf ++ [file])
    | Except.error _ =>
      processFiles upload backupFail backup shouldPost rest
        (quarantineUpd loc file) tried' sent (qf ++ [file])

/-- The `for sect in sections` loop.  `idx` is the number of sections
already processed and `total = len(sections)`; `shouldPostAction`
becomes true exactly when `section_run_count == len(sections)`, i.e. on
the last section.  A failing `ftp_open` raises
`RelayTransmissionError`, which `run_on_subfolder` re-raises. -/
def run_go (o : RunOracles) (backup : Bool) (files : List String) (total : Nat) :
    List String → Nat → (String → Loc) → List String →
    List SectionAudit × List String × (String → Loc) × Except PyErr Unit
  | [], _, loc, qf => ([], qf, loc, Except.ok ())
  | sect :: rest, idx, loc, qf =>
    if o.openFail sect then ([], qf, loc, Except.error PyErr.relayTransmissionError)
    else
      let shouldPost := decide (idx + 1 = total)
      let pf := processFiles (o.upload sect) o.backupFail backup shouldPost files loc [] [] qf
      let r2 := run_go o backup files total rest (idx + 1) pf.1 pf.2.2.2
      (⟨sect, pf.2.1, pf.2.2.1⟩ :: r2.1, r2.2.1, r2.2.2.1, r2.2.2.2)

/-- Result of the destination loop of `run_on_subfolder`. -/
structure RunResult where
  audits : List SectionAudit
  quarantine_files : List String
  loc : String → Loc
  outcome : Except PyErr Unit

/-- The destination loop of `TdsRelay.run_on_subfolder`, given the
already-computed `dat_file_list` (`files`) and the parsed config
sections; every file starts at its staging path. -/
def run_on_subfolder (o : RunOracles) (backup : Bool) (sections : List String)
    (files : List String) : RunResult :=
  let r := run_go o backup files sections.length sections 0 (fun _ => Loc.staging) []
  ⟨r.1, r.2.1, r.2.2.1, r.2.2.2⟩

/-- `diff_of_lists(li1, li2)` (tds_relay.py): the occurrences in
`li1 + li2` of elements missing from `li1` or from `li2`. -/
def diff_of_lists (li1 li2 : List String) : List String :=
  (li1 ++ li2).filter (fun i => decide (i ∉ li1 ∨ i ∉ li2))

/-- Modelled from the spec (NameResolver contract), for comparison with
`incremental_file_name`: if the name matches `<stem>-<digits>.<ext>`
(at its leftmost `-<digits>.` occurrence, the extension being the
remainder after that dot), return `<stem>-<digits+1>.<ext>`; otherwise
return `<stem>-1<ext>` with stem/extension split on the final dot. -/
def nameResolverSpec (s : String) : String :=
  match reSearch s.data with
  | some (pre, ds, rest) =>
    String.mk pre ++ "-" ++ toString (digitsToNat ds + 1) ++ "." ++ String.mk rest
  | none =>
    String.mk (pyStemSuffix s.data).1 ++ "-1" ++ String.mk (pyStemSuffix s.data).2

/-! # Theorems -/

/-- Inversion of a failed `reSearch` on a cons cell. -/
theorem reSearch_none_inv {c : Char} {cs : List Char}
    (h : reSearch (c :: cs) = none) :
    matchHere c cs = false ∧ reSearch cs = none := by
  by_cases hm : matchHere c cs
  · simp [reSearch, hm] at h
  · refine ⟨by simp [hm], ?_⟩
    cases hr : reSearch cs with
    | none => rfl
    | some v =>
      obtain ⟨p, d, r⟩ := v
      simp [reSearch, hm, hr] at h

/-- A successful `reSearch` decomposes its input around the match. -/
theorem reSearch_decomp :
    ∀ {l p ds r : List Char}, reSearch l = some (p, ds, r) →
      l = p ++ '-' :: (ds ++ '.' :: r) := by
  intro l
  induction l with
  | nil => intro p ds r h; simp [reSearch] at h
  | cons c cs ih =>
    intro p ds r h
    by_cases hm : matchHere c cs
    · simp only [reSearch, if_pos hm, Option.some.injEq, Prod.mk.injEq] at h
      obtain ⟨rfl, rfl, rfl⟩ := h
      have hm' := hm
      unfold matchHere at hm'
      simp only [Bool.and_eq_true, beq_iff_eq] at hm'
      obtain ⟨⟨hc, -⟩, hdot⟩ := hm'
      subst hc
      cases hdw : cs.dropWhile Char.isDigit with
      | nil => rw [hdw] at hdot; simp at hdot
      | cons x xs =>
        rw [hdw] at hdot
        simp only [List.head?_cons, Option.some.injEq] at hdot
        subst hdot
        have hsplit := List.takeWhile_append_dropWhile Char.isDigit cs
        rw [hdw] at hsplit
        simp only [List.nil_append, hdw, List.tail_cons]
        exact congrArg _ hsplit.symm
    · simp only [reSearch, if_neg hm] at h
      cases hr : reSearch cs with
      | none => rw [hr] at h; simp at h
      | some v =>
        obtain ⟨p', d', r'⟩ := v
        rw [hr] at h
        simp only [Option.some.injEq, Prod.mk.injEq] at h
        obtain ⟨rfl, rfl, rfl⟩ := h
        simp only [List.cons_append]
        exact congrArg _ (ih hr)

/-- The digit run of a `takeWhile` is the whole list iff the
`dropWhile` is empty. -/
theorem takeWhile_length_eq_iff {p : Char → Bool} {l : List Char} :
    (l.takeWhile p).length = l.length ↔ l.dropWhile p = [] := by
  constructor
  · intro h
    have hs := List.takeWhile_append_dropWhile p l
    have := congrArg List.length hs
    simp only [List.length_append] at this
    have : (l.dropWhile p).length = 0 := by omega
    exact List.length_eq_zero.mp this
  · intro h
    have hs := List.takeWhile_append_dropWhile p l
    rw [h, List.append_nil] at hs
    rw [hs]

/-- A failing `matchHere` still fails after appending `'/' :: n`. -/
theorem matchHere_append_slash {c : Char} {d : List Char} (n : List Char)
    (h : matchHere c d = false) : matchHere c (d ++ '/' :: n) = false := by
  unfold matchHere at h ⊢
  by_cases hE : (d.dropWhile Char.isDigit).isEmpty
  · have hdw : d.dropWhile Char.isDigit = [] := by
      simpa [List.isEmpty_iff] using hE
    have : (d ++ '/' :: n).dropWhile Char.isDigit = '/' :: n := by
      rw [List.dropWhile_append]
      simp [hdw, List.dropWhile_cons]
    rw [this]
    simp
  · have hdw : d.dropWhile Char.isDigit ≠ [] := by
      simpa [List.isEmpty_iff] using hE
    have htw : (d ++ '/' :: n).takeWhile Char.isDigit = d.takeWhile Char.isDigit := by
      rw [List.takeWhile_append, if_neg]
      intro hlen
      exact hdw (takeWhile_length_eq_iff.mp hlen)
    have hdw2 : (d ++ '/' :: n).dropWhile Char.isDigit =
        d.dropWhile Char.isDigit ++ '/' :: n := by
      rw [List.dropWhile_append, if_neg]
      simpa [List.isEmpty_iff] using hdw
    have hhd : (d.dropWhile Char.isDigit ++ '/' :: n).head? =
        (d.dropWhile Char.isDigit).head? := by
      cases hx : d.dropWhile Char.isDigit with
      | nil => exact absurd hx hdw
      | cons y ys => simp
    rw [htw, hdw2, hhd]
    exact h

/-- Unfolding `reSearch` on a cons cell whose head does not match. -/
theorem reSearch_cons_neg {c : Char} {cs : List Char} (h : matchHere c cs = false) :
    reSearch (c :: cs) =
      match reSearch cs with
      | some (p, d, r) => some (c :: p, d, r)
      | none => none := by
  simp [reSearch, h]

/-- When the head part contains no match, `reSearch` of
`d ++ '/' :: n` is the shifted `reSearch` of `n`. -/
theorem reSearch_append_slash {d : List Char} (n : List Char)
    (h : reSearch d = none) :
    reSearch (d ++ '/' :: n) =
      (reSearch n).map (fun v => (d ++ '/' :: v.1, v.2)) := by
  induction d with
  | nil =>
    have hm : matchHere '/' n = false := by simp [matchHere]
    rw [List.nil_append, reSearch_cons_neg hm]
    cases hr : reSearch n with
    | none => simp
    | some v => obtain ⟨p, ds, r⟩ := v; simp
  | cons c d ih =>
    obtain ⟨h1, h2⟩ := reSearch_none_inv h
    have h3 := matchHere_append_slash (c := c) (d := d) n h1
    have hcons : (c :: d) ++ '/' :: n = c :: (d ++ '/' :: n) := rfl
    rw [hcons, reSearch_cons_neg h3, ih h2]
    cases hr : reSearch n with
    | none => simp
    | some v => obtain ⟨p, ds, r⟩ := v; simp

/-- `os.path.basename` of a separator-free name is the name itself. -/
theorem basename_sepFree {s : String} (h : '/' ∉ s.data) : basename s = s := by
  apply String.ext
  show (s.data.reverse.takeWhile (fun c => c ≠ '/')).reverse = s.data
  rw [List.takeWhile_eq_self_iff.mpr, List.reverse_reverse]
  intro x hx
  simp only [List.mem_reverse] at hx
  simp only [decide_eq_true_eq]
  intro hxe
  exact h (hxe ▸ hx)

/-- `os.path.dirname` of a separator-free name is empty. -/
theorem dirname_sepFree {s : String} (h : '/' ∉ s.data) : dirname s = "" := by
  unfold dirname
  have htw : s.data.reverse.takeWhile (fun c => c ≠ '/') = s.data.reverse := by
    rw [List.takeWhile_eq_self_iff]
    intro x hx
    simp only [List.mem_reverse] at hx
    simp only [decide_eq_true_eq]
    intro hxe
    exact h (hxe ▸ hx)
  rw [htw]
  simp

/-- `os.path.join("", b) = b`. -/
theorem joinPath_empty (b : String) : joinPath "" b = b := by
  unfold joinPath
  by_cases hb : b.data.head? = some '/'
  · rw [if_pos hb]
  · rw [if_neg hb, if_pos (Or.inl rfl)]
    apply String.ext
    simp

/-- The reversed data of `d ++ "/" ++ n` for separator-free `n`. -/
theorem rev_data_append (d n : String) (hn : '/' ∉ n.data) :
    (d ++ "/" ++ n).data.reverse.takeWhile (fun c => c ≠ '/') = n.data.reverse := by
  have hdata : (d ++ "/" ++ n).data = (d.data ++ ['/']) ++ n.data := by
    simp [String.data_append]
  rw [hdata, List.reverse_append, List.reverse_append]
  have h1 : ∀ a ∈ n.data.reverse, (fun c => decide ¬c = '/') a = true := by
    intro a ha
    simp only [List.mem_reverse] at ha
    simp only [decide_eq_true_eq]
    intro hae
    exact hn (hae ▸ ha)
  rw [List.takeWhile_append_of_pos h1]
  simp

/-- `os.path.basename` splits `d ++ "/" ++ n` at the slash. -/
theorem basename_append (d n : String) (hn : '/' ∉ n.data) :
    basename (d ++ "/" ++ n) = n := by
  apply String.ext
  show ((d ++ "/" ++ n).data.reverse.takeWhile (fun c => c ≠ '/')).reverse = n.data
  rw [rev_data_append d n hn, List.reverse_reverse]

/-- `os.path.dirname` of `d ++ "/" ++ n` recovers `d` when `d` is
non-empty, does not end in a slash, and `n` is separator-free. -/
theorem dirname_append (d n : String) (hd : d.data ≠ [])
    (hlast : d.data.getLast? ≠ some '/') (hn : '/' ∉ n.data) :
    dirname (d ++ "/" ++ n) = d := by
  have hdata : (d ++ "/" ++ n).data = (d.data ++ ['/']) ++ n.data := by
    simp [String.data_append]
  have hlen : (d ++ "/" ++ n).data.length
      - ((d ++ "/" ++ n).data.reverse.takeWhile (fun c => c ≠ '/')).length
      = (d.data ++ ['/']).length := by
    rw [rev_data_append d n hn, hdata]
    simp only [List.length_append, List.length_reverse]
    simp
  have htake : (d ++ "/" ++ n).data.take ((d ++ "/" ++ n).data.length
      - ((d ++ "/" ++ n).data.reverse.takeWhile (fun c => c ≠ '/')).length)
      = d.data ++ ['/'] := by
    rw [hlen, hdata, List.take_left' rfl]
  have hne : ¬((d.data ++ ['/']).isEmpty = true ∨
      (d.data ++ ['/']).all (fun c => c == '/') = true) := by
    rintro (habs | habs)
    · simp [List.isEmpty_iff] at habs
    · have hsome := List.getLast?_eq_getLast d.data hd
      have hx : d.data.getLast hd ∈ d.data := List.getLast_mem hd
      have hall := List.all_eq_true.mp habs (d.data.getLast hd)
        (List.mem_append_left _ hx)
      have hxeq : d.data.getLast hd = '/' := by simpa using hall
      exact hlast (by rw [hsome, hxeq])
  show (let bl := ((d ++ "/" ++ n).data.reverse.takeWhile (fun c => c ≠ '/')).length
        let head := (d ++ "/" ++ n).data.take ((d ++ "/" ++ n).data.length - bl)
        if head.isEmpty ∨ head.all (fun c => c == '/') then String.mk head
        else String.mk (rstripSlash head)) = d
  simp only [htake]
  rw [if_neg hne]
  apply String.ext
  show rstripSlash (d.data ++ ['/']) = d.data
  unfold rstripSlash
  rw [List.reverse_append]
  simp only [List.reverse_cons, List.reverse_nil, List.nil_append, List.singleton_append]
  rw [List.dropWhile_cons_of_pos (by simp)]
  cases hrev : d.data.reverse with
  | nil =>
    exact absurd (by simpa using congrArg List.reverse hrev) hd
  | cons y ys =>
    have hy : y ≠ '/' := by
      have hg : d.data.getLast? = some y := by
        rw [List.getLast?_eq_head?_reverse, hrev]; rfl
      intro he
      exact hlast (he ▸ hg)
    rw [List.dropWhile_cons_of_neg (by simp [hy])]
    rw [← hrev, List.reverse_reverse]

/-- `rstripSlash` is the identity when the last character is not a
slash. -/
theorem rstripSlash_of_getLast {s : List Char} (h : s.getLast? ≠ some '/') :
    rstripSlash s = s := by
  unfold rstripSlash
  cases hrev : s.reverse with
  | nil =>
    have hs : s = [] := by simpa using congrArg List.reverse hrev
    subst hs
    simp
  | cons y ys =>
    have hy : y ≠ '/' := by
      have hg : s.getLast? = some y := by
        rw [List.getLast?_eq_head?_reverse, hrev]; rfl
      intro he
      exact h (he ▸ hg)
    rw [List.dropWhile_cons_of_neg (by simp [hy])]
    calc (y :: ys).reverse = s.reverse.reverse := by rw [hrev]
      _ = s := List.reverse_reverse s

/-- `PurePosixPath(s).name` is the basename when `s` has no trailing
slash. -/
theorem pyPathName_of_getLast {s : String} (h : s.data.getLast? ≠ some '/') :
    pyPathName s = basename s := by
  unfold pyPathName
  rw [rstripSlash_of_getLast h]

/-- `os.path.join` concatenates with a separator in the regular case. -/
theorem joinPath_concat (d b : String) (hd : d.data ≠ [])
    (hlast : d.data.getLast? ≠ some '/') (hb : b.data.head? ≠ some '/') :
    joinPath d b = d ++ "/" ++ b := by
  unfold joinPath
  rw [if_neg hb, if_neg]
  rintro (h1 | h2)
  · exact hd h1
  · exact hlast h2

/-- A string of the shape `a-<num>.b` is non-empty. -/
theorem matchResult_ne_empty (a t b : String) : a ++ "-" ++ t ++ "." ++ b ≠ "" := by
  intro h
  have hdat := congrArg String.data h
  simp only [String.data_append] at hdat
  rcases List.append_eq_nil.mp hdat with ⟨h1, -⟩
  rcases List.append_eq_nil.mp h1 with ⟨h2, -⟩
  rcases List.append_eq_nil.mp h2 with ⟨h3, -⟩
  rcases List.append_eq_nil.mp h3 with ⟨-, h4⟩
  exact absurd h4 (by simp)

/-- A string of the shape `a-1b` is non-empty. -/
theorem stemResult_ne_empty (a b : String) : a ++ "-1" ++ b ≠ "" := by
  intro h
  have hdat := congrArg String.data h
  simp only [String.data_append] at hdat
  rcases List.append_eq_nil.mp hdat with ⟨h1, -⟩
  rcases List.append_eq_nil.mp h1 with ⟨-, h2⟩
  exact absurd h2 (by simp)

/-- The first character of a `take` is the first character. -/
theorem head?_take_pos {l : List Char} {i : Nat} (h : 0 < i) :
    (l.take i).head? = l.head? := by
  cases l with
  | nil => simp
  | cons x xs =>
    cases i with
    | zero => exact absurd h (by simp)
    | succ j => simp

/-- The resolved name of a separator-free non-empty name never starts
with a slash. -/
theorem nameResolverSpec_head {n : String}
    (hsep : '/' ∉ n.data) : (nameResolverSpec n).data.head? ≠ some '/' := by
  unfold nameResolverSpec
  cases hr : reSearch n.data with
  | some v =>
    obtain ⟨p, ds, r⟩ := v
    simp only [String.data_append]
    cases p with
    | nil => simp
    | cons x xs =>
      have hxmem : x ∈ n.data := by
        rw [reSearch_decomp hr]
        exact List.mem_append_left _ (List.mem_cons_self x xs)
      simp only [List.cons_append, List.head?_cons, ne_eq, Option.some.injEq]
      intro habs
      exact hsep (habs ▸ hxmem)
  | none =>
    simp only [String.data_append]
    have hstem : (pyStemSuffix n.data).1.head? = n.data.head? := by
      unfold pyStemSuffix
      cases hfd : rfindDot n.data with
      | none => rfl
      | some i =>
        dsimp only
        by_cases hcond : 0 < i ∧ i < n.data.length - 1
        · rw [if_pos hcond]
          exact head?_take_pos hcond.1
        · rw [if_neg hcond]
    cases hp : (pyStemSuffix n.data).1 with
    | nil =>
      simp only [List.nil_append]
      simp
    | cons x xs =>
      have hx : x ∈ n.data := by
        have : n.data.head? = some x := by rw [← hstem, hp]; rfl
        cases hnd : n.data with
        | nil => rw [hnd] at this; simp at this
        | cons z zs =>
          rw [hnd] at this
          simp only [List.head?_cons, Option.some.injEq] at this
          rw [← this]
          exact List.mem_cons_self z zs
      simp only [List.cons_append, List.head?_cons, ne_eq, Option.some.injEq]
      intro habs
      exact hsep (habs ▸ hx)

/-- On a separator-free non-empty name, `incremental_file_name` agrees
with the spec-level NameResolver contract. -/
theorem inc_sepFree_eq {s : String} (hsep : '/' ∉ s.data) :
    incremental_file_name s = Except.ok (nameResolverSpec s) := by
  have hbn : basename s = s := basename_sepFree hsep
  have hdn : dirname s = "" := dirname_sepFree hsep
  have hlast : s.data.getLast? ≠ some '/' := by
    intro habs
    exact hsep (List.mem_of_mem_getLast? habs)
  have hpp : pyPathName s = s := by
    rw [pyPathName_of_getLast hlast, hbn]
  cases hr : reSearch s.data with
  | some v =>
    obtain ⟨p, ds, r⟩ := v
    simp only [incremental_file_name, nameResolverSpec, hbn, hdn, hr]
    rw [if_neg (matchResult_ne_empty _ _ _), joinPath_empty]
  | none =>
    simp only [incremental_file_name, nameResolverSpec, hbn, hdn, hpp, hr]
    rw [if_neg (stemResult_ne_empty _ _), joinPath_empty]

/-- On a path `d ++ "/" ++ n` whose directory part contains no
`-<digits>.` occurrence, `incremental_file_name` resolves the basename
and preserves the directory prefix. -/
theorem inc_dirfull_eq {d n : String} (hd : d ≠ "") (hn : n ≠ "")
    (hnsep : '/' ∉ n.data) (hdnone : reSearch d.data = none)
    (hdlast : d.data.getLast? ≠ some '/') :
    incremental_file_name (d ++ "/" ++ n)
      = Except.ok (d ++ "/" ++ nameResolverSpec n) := by
  have hddata : d.data ≠ [] := fun habs => hd (String.ext habs)
  have hndata : n.data ≠ [] := fun habs => hn (String.ext habs)
  have hfull : (d ++ "/" ++ n).data = d.data ++ '/' :: n.data := by
    simp [String.data_append]
  have hbn : basename (d ++ "/" ++ n) = n := basename_append d n hnsep
  have hdn : dirname (d ++ "/" ++ n) = d := dirname_append d n hddata hdlast hnsep
  have hres := reSearch_append_slash n.data hdnone
  have hnlast : n.data.getLast? ≠ some '/' := by
    intro habs
    exact hnsep (List.mem_of_mem_getLast? habs)
  have hflast : (d ++ "/" ++ n).data.getLast? ≠ some '/' := by
    rw [hfull, List.getLast?_append]
    cases hx : n.data with
    | nil => exact absurd hx hndata
    | cons z zs =>
      rw [List.getLast?_cons_cons]
      have hz : (z :: zs).getLast? ≠ some '/' := by rw [← hx]; exact hnlast
      cases hg : (z :: zs).getLast? with
      | none => rw [Option.none_or]; exact hdlast
      | some w =>
        rw [Option.or_some]
        rw [hg] at hz
        exact hz
  have hpp : pyPathName (d ++ "/" ++ n) = n := by
    rw [pyPathName_of_getLast hflast, hbn]
  cases hrn : reSearch n.data with
  | some v =>
    obtain ⟨p, ds, r⟩ := v
    have hspec : nameResolverSpec n = String.mk p ++ "-"
        ++ toString (digitsToNat ds + 1) ++ "." ++ String.mk r := by
      simp only [nameResolverSpec, hrn]
    simp only [incremental_file_name, hbn, hdn, hfull, hres, hrn,
      Option.map_some']
    rw [if_neg (matchResult_ne_empty _ _ _), ← hspec,
      joinPath_concat d _ hddata hdlast (nameResolverSpec_head hnsep)]
  | none =>
    have hspec : nameResolverSpec n = String.mk (pyStemSuffix n.data).1
        ++ "-1" ++ String.mk (pyStemSuffix n.data).2 := by
      simp only [nameResolverSpec, hrn]
    simp only [incremental_file_name, hbn, hdn, hfull, hres, hrn, hpp,
      Option.map_none']
    rw [if_neg (stemResult_ne_empty _ _), ← hspec,
      joinPath_concat d _ hddata hdlast (nameResolverSpec_head hnsep)]

/-- C3 (counterexample): the claim's contract forces the resolved name
to differ from the input — the pattern branch increments the number and
the otherwise branch inserts `-1` — but on `"d-1.x/a.dat"` the code
matches `-1.` inside the *directory* part while `re.sub` rewrites only
the basename `a.dat`, which contains no match, so the input is returned
unchanged: neither `d-2.x/a.dat` nor `d-1.x/a-1.dat`. -/
theorem incremental_file_name_dashdir_cx :
    incremental_file_name "d-1.x/a.dat" = Except.ok "d-1.x/a.dat"
    ∧ ("d-1.x/a.dat" : String) ≠ "d-2.x/a.dat"
    ∧ ("d-1.x/a.dat" : String) ≠ "d-1.x/a-1.dat" :=
  ⟨by rfl, by decide, by decide⟩

/-- C3 (amended): for every non-empty file name without a path
separator, `incremental_file_name` returns `<stem>-<digits+1>.<ext>`
when the name contains a `-<digits>.` occurrence (stem = prefix of the
leftmost such occurrence, ext = remainder after its dot) and
`<stem>-1<ext>` otherwise (stem/ext split on the final dot), as
captured by `nameResolverSpec`; the directory prefix is preserved
provided the directory part itself contains no `-<digits>.` occurrence
and no trailing slash; concretely `a.dat ↦ a-1.dat`,
`a-1.dat ↦ a-2.dat`, `a-9.dat ↦ a-10.dat`. -/
theorem incremental_file_name_contract :
    (∀ s : String, s ≠ "" → '/' ∉ s.data →
      incremental_file_name s = Except.ok (nameResolverSpec s))
    ∧ (∀ d n : String, d ≠ "" → n ≠ "" → '/' ∉ n.data →
        reSearch d.data = none → d.data.getLast? ≠ some '/' →
        incremental_file_name (d ++ "/" ++ n)
          = Except.ok (d ++ "/" ++ nameResolverSpec n))
    ∧ incremental_file_name "a.dat" = Except.ok "a-1.dat"
    ∧ incremental_file_name "a-1.dat" = Except.ok "a-2.dat"
    ∧ incremental_file_name "a-9.dat" = Except.ok "a-10.dat" :=
  ⟨fun _ _ h => inc_sepFree_eq h,
   fun _ _ hd hn h1 h2 h3 => inc_dirfull_eq hd hn h1 h2 h3,
   by rfl, by rfl, by rfl⟩

/-- Witness for `incremental_file_name_contract` at concrete inputs. -/
theorem incremental_file_name_contract_witness :
    (("x-3.dat" : String) ≠ "" ∧ '/' ∉ ("x-3.dat" : String).data
      ∧ incremental_file_name "x-3.dat" = Except.ok (nameResolverSpec "x-3.dat"))
    ∧ (("d" : String) ≠ "" ∧ ("b.dat" : String) ≠ ""
      ∧ '/' ∉ ("b.dat" : String).data
      ∧ reSearch ("d" : String).data = none
      ∧ ("d" : String).data.getLast? ≠ some '/'
      ∧ incremental_file_name ("d" ++ "/" ++ "b.dat")
          = Except.ok ("d" ++ "/" ++ nameResolverSpec "b.dat")) :=
  ⟨⟨by decide, by decide,
      incremental_file_name_contract.1 "x-3.dat" (by decide) (by decide)⟩,
   ⟨by decide, by decide, by decide, by rfl, by decide,
      incremental_file_name_contract.2.1 "d" "b.dat" (by decide) (by decide)
        (by decide) (by rfl) (by decide)⟩⟩

/-- C1 (failing input): with remote namespace `{a.dat}` and an injected
failure of the local forward rename `os.rename(file, new_name)`, both
upload variants let an `OSError` escape to the caller instead of
returning `False`: `new_name` is assigned before the failing rename, so
the `finally` block attempts `os.rename(new_name, file)` whose source
does not exist, and that exception is raised past the `return`,
contradicting the docstring `True if success, otherwise False`. -/
theorem ftp_upload_localrename_failure_escapes :
    RelayFtp.ftp_upload ["a.dat"]
        ⟨fun _ => false, false, false, false, true, false⟩ "a.dat" 5
      = some ⟨Except.error PyErr.osError, "a.dat", none, ["a.dat"]⟩
    ∧ RelaySftp.ftp_upload ["a.dat"]
        ⟨fun _ => false, false, false, false, true, false⟩ "a.dat" 5
      = some ⟨Except.error PyErr.osError, "a.dat", none, ["a.dat"]⟩ :=
  ⟨by rfl, by rfl⟩

/-- C9 (failing input): both `ftp_open`s and `RelayFtp.ftp_close` wrap
an underlying failure in `RelayTransmissionError`, but
`RelaySftp.ftp_close` executes `raise "..." from ex` — raising a `str`
— which Python 3 turns into `TypeError: exceptions must derive from
BaseException`, a different kind of failure than the claimed
`RelayTransmissionError`. -/
theorem sftp_close_raises_typeerror :
    RelaySftp.ftp_close true true = Except.error PyErr.typeError
    ∧ RelayFtp.ftp_close true true = Except.error PyErr.relayTransmissionError
    ∧ RelayFtp.ftp_open true = Except.error PyErr.relayTransmissionError
    ∧ RelaySftp.ftp_open true = Except.error PyErr.relayTransmissionError
    ∧ PyErr.typeError ≠ PyErr.relayTransmissionError :=
  ⟨by rfl, by rfl, by rfl, by rfl, by decide⟩

/-- C6 (failing input): a `.dat` file whose extracted customer is
`EVE` against a single configured section with allowlist `[ALICE]`.
The membership test `c_dat not in customer` references the undefined
name `customer` (the config tuple binds `customers`), so
`validate_transfer_info` raises `NameError` instead of returning
`False`, and since `NameError` is not the `TdsRelayUnmetSpecError` that
`get_file_list` catches, the whole directory scan aborts instead of
skipping the file. -/
theorem validate_transfer_info_raises_nameerror :
    validate_transfer_info (fun _ => Except.ok (some "EVE")) [["ALICE"]] "d/f.dat"
      = Except.error PyErr.nameError
    ∧ get_file_list "d" false 0 false (fun _ => Except.ok (some "EVE"))
        [["ALICE"]] [⟨"f.dat", 500⟩] = Except.error PyErr.nameError :=
  ⟨by rfl, by rfl⟩

/-- `RelayFtp.ftp_upload` leaves the local file under its original
basename whenever the local renames themselves do not fail. -/
theorem ftp_upload_localName {srv : List String} {f : FtpFaults}
    {file : String} {fuel : Nat} {r : UploadResult}
    (hf : f.lrenFwd = false) (hb : f.lrenBack = false)
    (h : RelayFtp.ftp_upload srv f file fuel = some r) :
    r.localName = basename file := by
  simp only [RelayFtp.ftp_upload, hf, hb, Bool.false_eq_true, if_false] at h
  repeat' split at h
  all_goals (try (cases h; rfl))
  all_goals (try exact Option.noConfusion h)

/-- `RelaySftp.ftp_upload` leaves the local file under its original
basename whenever the local renames themselves do not fail. -/
theorem sftp_upload_localName {srv : List String} {f : SftpFaults}
    {file : String} {fuel : Nat} {r : UploadResult}
    (hf : f.lrenFwd = false) (hb : f.lrenBack = false)
    (h : RelaySftp.ftp_upload srv f file fuel = some r) :
    r.localName = basename file := by
  simp only [RelaySftp.ftp_upload, hf, hb, Bool.false_eq_true, if_false] at h
  repeat' split at h
  all_goals (try (cases h; rfl))
  all_goals (try exact Option.noConfusion h)

/-- C4: on every exit path of either upload variant — success, failure
result, or escaping internal error — if the file was locally renamed to
the resolved remote name during the call, it is renamed back before the
call returns, so the local file bears its original basename afterwards
(for every remote namespace and every injected transport failure; the
local rename operations themselves are taken reliable). -/
theorem ftp_upload_restores_local_name :
    (∀ (srv : List String) (f : FtpFaults) (file : String) (fuel : Nat)
        (r : UploadResult), f.lrenFwd = false → f.lrenBack = false →
      RelayFtp.ftp_upload srv f file fuel = some r → r.localName = basename file)
    ∧ (∀ (srv : List String) (f : SftpFaults) (file : String) (fuel : Nat)
        (r : UploadResult), f.lrenFwd = false → f.lrenBack = false →
      RelaySftp.ftp_upload srv f file fuel = some r → r.localName = basename file) :=
  ⟨fun _ _ _ _ _ hf hb h => ftp_upload_localName hf hb h,
   fun _ _ _ _ _ hf hb h => sftp_upload_localName hf hb h⟩

/-- Witness for `ftp_upload_restores_local_name`: a failing store after
a collision rename still ends with the local file named `a.dat`. -/
theorem ftp_upload_restores_local_name_witness :
    ((⟨fun _ => false, false, true, false, false, false⟩ : FtpFaults).lrenFwd = false
    ∧ (⟨fun _ => false, false, true, false, false, false⟩ : FtpFaults).lrenBack = false
    ∧ RelayFtp.ftp_upload ["a.dat"]
        ⟨fun _ => false, false, true, false, false, false⟩ "a.dat" 5
        = some ⟨Except.ok false, "a.dat", none, ["a.dat"]⟩)
    ∧ (⟨Except.ok false, "a.dat", none, ["a.dat"]⟩ : UploadResult).localName
        = basename "a.dat" :=
  ⟨⟨rfl, rfl, by rfl⟩,
   ftp_upload_restores_local_name.1 ["a.dat"]
     ⟨fun _ => false, false, true, false, false, false⟩ "a.dat" 5
     ⟨Except.ok false, "a.dat", none, ["a.dat"]⟩ rfl rfl (by rfl)⟩

/-- Stepping `incIterE` from the head. -/
theorem incIterE_succ_head {s s' : String}
    (h : incremental_file_name s = Except.ok s') :
    ∀ j, incIterE s (j + 1) = incIterE s' j := by
  intro j
  induction j with
  | zero => exact h
  | succ j ih =>
    show (incIterE s (j + 1)).bind incremental_file_name = incIterE s' (j + 1)
    rw [ih]
    rfl

/-- Soundness of the FTP collision loop: a `found` result is the first
iterate of `incremental_file_name` that is absent from the listing in
force at its membership test (the stale pre-delete listing `cur` for
the initial test, the re-queried listing `next` afterwards). -/
theorem ftpLoop_found_first_unused (next : List String) (nlstF : Nat → Bool) :
    ∀ (fuel : Nat) (cur : List String) (name : String) (i : Nat) (r : String),
      ftpLoop next nlstF cur name i fuel = LoopRes.found r →
      ∃ k, incIterE name k = Except.ok r
        ∧ (∀ j, j < k → ∃ s', incIterE name j = Except.ok s'
            ∧ s' ∈ (if j = 0 then cur else next))
        ∧ r ∉ (if k = 0 then cur else next) := by
  intro fuel
  induction fuel with
  | zero =>
    intro cur name i r h
    by_cases hm : name ∈ cur
    · simp [ftpLoop, hm] at h
    · have : LoopRes.found name = LoopRes.found r := by
        simpa [ftpLoop, hm] using h
      cases this
      exact ⟨0, rfl, fun j hj => absurd hj (Nat.not_lt_zero j), by simpa using hm⟩
  | succ fuel ih =>
    intro cur name i r h
    by_cases hm : name ∈ cur
    · cases hinc : incremental_file_name name with
      | error e => simp [ftpLoop, hm, hinc] at h
      | ok n' =>
        by_cases hn : nlstF i
        · simp [ftpLoop, hm, hinc, hn] at h
        · have h' : ftpLoop next nlstF next n' (i + 1) fuel = LoopRes.found r := by
            simpa [ftpLoop, hm, hinc, hn] using h
          obtain ⟨k, hk1, hk2, hk3⟩ := ih next n' (i + 1) r h'
          refine ⟨k + 1, ?_, ?_, ?_⟩
          · rw [incIterE_succ_head hinc]; exact hk1
          · intro j hj
            cases j with
            | zero => exact ⟨name, rfl, by simpa using hm⟩
            | succ j' =>
              obtain ⟨s', hs1, hs2⟩ := hk2 j' (by omega)
              refine ⟨s', by rw [incIterE_succ_head hinc]; exact hs1, ?_⟩
              simp only [Nat.succ_ne_zero, if_false]
              simpa [ite_self] using hs2
          · simp only [Nat.succ_ne_zero, if_false]
            simpa [ite_self] using hk3
    · have : LoopRes.found name = LoopRes.found r := by
        simpa [ftpLoop, hm] using h
      cases this
      exact ⟨0, rfl, fun j hj => absurd hj (Nat.not_lt_zero j), by simpa using hm⟩

/-- Soundness of the SFTP collision loop: a `found` result is the first
iterate of `incremental_file_name` absent from the live namespace. -/
theorem sftpLoop_found_first_unused (srv : List String) (exF : Nat → Bool) :
    ∀ (fuel : Nat) (name : String) (i : Nat) (r : String),
      sftpLoop srv exF name i fuel = LoopRes.found r →
      ∃ k, incIterE name k = Except.ok r
        ∧ (∀ j, j < k → ∃ s', incIterE name j = Except.ok s' ∧ s' ∈ srv)
        ∧ r ∉ srv := by
  intro fuel
  induction fuel with
  | zero =>
    intro name i r h
    by_cases hx : exF i
    · simp [sftpLoop, hx] at h
    · by_cases hm : name ∈ srv
      · simp [sftpLoop, hx, hm] at h
      · have : LoopRes.found name = LoopRes.found r := by
          simpa [sftpLoop, hx, hm] using h
        cases this
        exact ⟨0, rfl, fun j hj => absurd hj (Nat.not_lt_zero j), hm⟩
  | succ fuel ih =>
    intro name i r h
    by_cases hx : exF i
    · simp [sftpLoop, hx] at h
    · by_cases hm : name ∈ srv
      · cases hinc : incremental_file_name name with
        | error e => simp [sftpLoop, hx, hm, hinc] at h
        | ok n' =>
          have h' : sftpLoop srv exF n' (i + 1) fuel = LoopRes.found r := by
            simpa [sftpLoop, hx, hm, hinc] using h
          obtain ⟨k, hk1, hk2, hk3⟩ := ih n' (i + 1) r h'
          refine ⟨k + 1, by rw [incIterE_succ_head hinc]; exact hk1, ?_, hk3⟩
          intro j hj
          cases j with
          | zero => exact ⟨name, rfl, hm⟩
          | succ j' =>
            obtain ⟨s', hs1, hs2⟩ := hk2 j' (by omega)
            exact ⟨s', by rw [incIterE_succ_head hinc]; exact hs1, hs2⟩
      · have : LoopRes.found name = LoopRes.found r := by
          simpa [sftpLoop, hx, hm] using h
        cases this
        exact ⟨0, rfl, fun j hj => absurd hj (Nat.not_lt_zero j), hm⟩

/-- C5: in both variants the collision-avoidance loop starts from the
base name, re-queries remote existence at every test, applies
`incremental_file_name` while the name is taken, and a terminating run
stops at the first unused name — every earlier iterate was found in the
listing in force at its test and the result is absent; concretely, with
remote namespace `{a.dat, a-1.dat}` an upload of local `a.dat` resolves
to and stores `a-2.dat`, renaming the local file back to `a.dat`. -/
theorem collision_loop_first_unused :
    (∀ (next cur : List String) (nlstF : Nat → Bool) (fuel i : Nat)
        (name r : String),
      ftpLoop next nlstF cur name i fuel = LoopRes.found r →
      ∃ k, incIterE name k = Except.ok r
        ∧ (∀ j, j < k → ∃ s', incIterE name j = Except.ok s'
            ∧ s' ∈ (if j = 0 then cur else next))
        ∧ r ∉ (if k = 0 then cur else next))
    ∧ (∀ (srv : List String) (exF : Nat → Bool) (fuel i : Nat) (name r : String),
      sftpLoop srv exF name i fuel = LoopRes.found r →
      ∃ k, incIterE name k = Except.ok r
        ∧ (∀ j, j < k → ∃ s', incIterE name j = Except.ok s' ∧ s' ∈ srv)
        ∧ r ∉ srv)
    ∧ RelayFtp.ftp_upload ["a.dat", "a-1.dat"]
        ⟨fun _ => false, false, false, false, false, false⟩ "a.dat" 5
      = some ⟨Except.ok true, "a.dat", some "a-2.dat",
              ["a.dat", "a-1.dat", "a-2.dat"]⟩
    ∧ RelaySftp.ftp_upload ["a.dat", "a-1.dat"]
        ⟨fun _ => false, false, false, false, false, false⟩ "a.dat" 5
      = some ⟨Except.ok true, "a.dat", some "a-2.dat",
              ["a.dat", "a-1.dat", "a-2.dat"]⟩ :=
  ⟨fun next cur nlstF fuel i name r h =>
      ftpLoop_found_first_unused next nlstF fuel cur name i r h,
   fun srv exF fuel i name r h =>
      sftpLoop_found_first_unused srv exF fuel name i r h,
   by rfl, by rfl⟩

/-- Witness for `collision_loop_first_unused` on the concrete namespace
`{a.dat, a-1.dat}`. -/
theorem collision_loop_first_unused_witness :
    ftpLoop ["a.dat", "a-1.dat"] (fun _ => false) ["a.dat", "a-1.dat"]
        "a.dat" 1 5 = LoopRes.found "a-2.dat"
    ∧ ∃ k, incIterE "a.dat" k = Except.ok "a-2.dat"
        ∧ (∀ j, j < k → ∃ s', incIterE "a.dat" j = Except.ok s'
            ∧ s' ∈ (if j = 0 then ["a.dat", "a-1.dat"] else ["a.dat", "a-1.dat"]))
        ∧ "a-2.dat" ∉ (if k = 0 then ["a.dat", "a-1.dat"] else ["a.dat", "a-1.dat"]) :=
  ⟨by rfl,
   collision_loop_first_unused.1 ["a.dat", "a-1.dat"] ["a.dat", "a-1.dat"]
     (fun _ => false) 5 1 "a.dat" "a-2.dat" (by rfl)⟩

/-- A suffix survives prepending. -/
theorem endsWithL_append (l suf x : List Char) (h : endsWithL l suf = true) :
    endsWithL (x ++ l) suf = true := by
  simp only [endsWithL, decide_eq_true_eq] at h ⊢
  exact h.trans (List.suffix_append x l)

/-- A suffix of the basename is a suffix of the joined path. -/
theorem endsWithL_joinPath (a b : String) (suf : List Char)
    (h : endsWithL b.data suf = true) :
    endsWithL (joinPath a b).data suf = true := by
  unfold joinPath
  split
  · exact h
  · split
    · rw [String.data_append]; exact endsWithL_append _ _ _ h
    · rw [String.data_append]; exact endsWithL_append _ _ _ h

/-- In permissive mode with validation disabled, the per-file loop
keeps exactly the entries whose age meets the threshold. -/
theorem get_file_list_go_perm (fd : String) (delay : Int)
    (g : String → Except PyErr (Option String)) (secs : List (List String)) :
    ∀ l, get_file_list_go fd true delay true g secs l
      = Except.ok ((l.filter (fun e => !(e.age < delay))).map
          (fun e => joinPath fd e.name)) := by
  intro l
  induction l with
  | nil => rfl
  | cons e rest ih =>
    by_cases hage : e.age < delay
    · simp [get_file_list_go, hage, ih, List.filter_cons]
    · simp [get_file_list_go, hage, ih, List.filter_cons, Except.map]

/-- In strict mode with validation disabled, over entries matching
`*.dat`, the per-file loop keeps exactly the entries whose age meets
the threshold. -/
theorem get_file_list_go_strict (fd : String) (delay : Int)
    (g : String → Except PyErr (Option String)) (secs : List (List String)) :
    ∀ l, (∀ e ∈ l, strictMatch e.name = true) →
      get_file_list_go fd false delay true g secs l
        = Except.ok ((l.filter (fun e => !(e.age < delay))).map
            (fun e => joinPath fd e.name)) := by
  intro l
  induction l with
  | nil => intro; rfl
  | cons e rest ih =>
    intro hall
    have hdat : endsWithL (joinPath fd e.name).data ".dat".data = true := by
      refine endsWithL_joinPath fd e.name _ ?_
      have := hall e (List.mem_cons_self e rest)
      exact (Bool.and_eq_true_iff.mp this).2
    have ih' := ih fun x hx => hall x (List.mem_cons_of_mem e hx)
    by_cases hage : e.age < delay
    · simp [get_file_list_go, hage, ih', List.filter_cons]
    · simp [get_file_list_go, hage, hdat, ih', List.filter_cons, Except.map]

/-- C8 (amended): in permissive mode the selection predicate is
`matches *.* (contains a dot, not a dot-initial hidden file)`, `does
not end in .tmp`, and `age meets the threshold` — the glob `*.*`
restriction is part of the predicate, so dotless or hidden files are
not candidates even though they do not end in the temporary suffix. -/
theorem permissive_filter_characterization :
    ∀ (fd : String) (delay : Int) (g : String → Except PyErr (Option String))
      (secs : List (List String)) (dir : List FileEntry),
      get_file_list fd true delay true g secs dir
        = Except.ok ((((dir.filter (fun e => permMatch e.name)).filter
              (fun e => !endsWithL (joinPath fd e.name).data ".tmp".data)).filter
              (fun e => !(e.age < delay))).map (fun e => joinPath fd e.name)) :=
  fun fd delay g secs _dir => get_file_list_go_perm fd delay g secs _

/-- C8 (counterexample): `README` is a regular file not ending in the
reserved `.tmp` suffix whose age meets the threshold, yet the
permissive scan returns no candidates, because the glob `*.*` requires
a dot in the name. -/
theorem permissive_filter_requires_dot_cx :
    get_file_list "d" true 0 true (fun _ => Except.ok none) [] [⟨"README", 200⟩]
      = Except.ok []
    ∧ endsWithL (joinPath "d" "README").data ".tmp".data = false
    ∧ ¬((200 : Int) < 0) :=
  ⟨by rfl, by rfl, by decide⟩

/-- Two suffixes of the same list with equal lengths coincide. -/
theorem suffix_eq_of_length {l s1 s2 : List Char} (h1 : s1 <:+ l)
    (h2 : s2 <:+ l) (hl : s1.length = s2.length) : s1 = s2 := by
  obtain ⟨a, ha⟩ := h1
  obtain ⟨b, hb⟩ := h2
  exact List.append_inj_right' (ha.trans hb.symm) hl

/-- A `.txt` name never matches the strict `*.dat` glob. -/
theorem txt_not_strictMatch (e : FileEntry)
    (h : endsWithL e.name.data ".txt".data = true) :
    strictMatch e.name = false := by
  unfold strictMatch
  cases hdat : endsWithL e.name.data ".dat".data with
  | false => simp [hdat]
  | true =>
    simp only [endsWithL, decide_eq_true_eq] at h hdat
    have := suffix_eq_of_length h hdat (by decide)
    exact absurd this (by decide)

/-- Files not in the processed list are untouched by one section's
file loop: their location is unchanged and they are not added to the
quarantine audit. -/
theorem processFiles_untouched (u : String → Except PyErr Bool)
    (bf : String → Bool) (b sp : Bool) :
    ∀ (files : List String) (loc : String → Loc) (tried sent qf : List String)
      (x : String), x ∉ files →
      (processFiles u bf b sp files loc tried sent qf).1 x = loc x
      ∧ (x ∈ (processFiles u bf b sp files loc tried sent qf).2.2.2 → x ∈ qf) := by
  intro files
  induction files with
  | nil => intro loc tried sent qf x hx; exact ⟨rfl, fun h => h⟩
  | cons file rest ih =>
    intro loc tried sent qf x hx
    have hxf : x ≠ file := fun habs => hx (habs ▸ List.mem_cons_self file rest)
    have hxr : x ∉ rest := fun habs => hx (List.mem_cons_of_mem file habs)
    have hq : ∀ (l : String → Loc), quarantineUpd l file x = l x := by
      intro l; simp [quarantineUpd, hxf]
    have hmv : ∀ (l : String → Loc) (t : Loc), moveUpd l file t x = l x := by
      intro l t; simp [moveUpd, hxf]
    have hqf : ∀ (q : List String), x ∈ q ++ [file] → x ∈ q := by
      intro q hmem
      rcases List.mem_append.mp hmem with h9 | h9
      · exact h9
      · exact absurd (by simpa using h9) hxf
    simp only [processFiles]
    repeat' split
    all_goals refine ⟨?_, ?_⟩
    all_goals
      try (refine ((ih _ _ _ _ x hxr).1).trans ?_
           first
             | exact hq _
             | exact hmv _ _
             | rfl)
    all_goals
      (intro hmem
       have h10 := (ih _ _ _ _ x hxr).2 hmem
       first
         | exact hqf _ h10
         | exact h10)

/-- Files not in the processed list are untouched by the whole
destination loop. -/
theorem run_go_untouched (o : RunOracles) (backup : Bool)
    (files : List String) (total : Nat) :
    ∀ (secs : List String) (idx : Nat) (loc : String → Loc)
      (qf : List String) (x : String), x ∉ files →
      (run_go o backup files total secs idx loc qf).2.2.1 x = loc x
      ∧ (x ∈ (run_go o backup files total secs idx loc qf).2.1 → x ∈ qf) := by
  intro secs
  induction secs with
  | nil => intro idx loc qf x hx; exact ⟨rfl, fun h => h⟩
  | cons sect rest ih =>
    intro idx loc qf x hx
    simp only [run_go]
    by_cases ho : o.openFail sect
    · rw [if_pos ho]
      exact ⟨rfl, fun h => h⟩
    · rw [if_neg ho]
      obtain ⟨hpf1, hpf2⟩ := processFiles_untouched (o.upload sect) o.backupFail
        backup (decide (idx + 1 = total)) files loc [] [] qf x hx
      obtain ⟨hr1, hr2⟩ := ih (idx + 1)
        (processFiles (o.upload sect) o.backupFail backup
          (decide (idx + 1 = total)) files loc [] [] qf).1
        (processFiles (o.upload sect) o.backupFail backup
          (decide (idx + 1 = total)) files loc [] [] qf).2.2.2 x hx
      exact ⟨hr1.trans hpf1, fun h => hpf2 (hr2 h)⟩

/-- C7: in strict mode with validation off, the candidate list is
exactly the `*.dat` entries whose modification age meets the threshold
— an entry with age exactly equal to the threshold is kept, one with
strictly smaller age is dropped — and a `.txt` file is not a candidate
and is left untouched by the destination loop: never quarantined. -/
theorem eligibility_filter_age_boundary :
    (∀ (fd : String) (delay : Int) (g : String → Except PyErr (Option String))
        (secs : List (List String)) (dir : List FileEntry),
      get_file_list fd false delay true g secs dir
        = Except.ok (((dir.filter (fun e => strictMatch e.name)).filter
            (fun e => !(e.age < delay))).map (fun e => joinPath fd e.name)))
    ∧ (∀ (dir : List FileEntry) (delay : Int) (e : FileEntry), e ∈ dir →
        strictMatch e.name = true → e.age = delay →
        e ∈ (dir.filter (fun e => strictMatch e.name)).filter
              (fun e => !(e.age < delay)))
    ∧ (∀ (dir : List FileEntry) (delay : Int) (e : FileEntry), e.age < delay →
        e ∉ (dir.filter (fun e => strictMatch e.name)).filter
              (fun e => !(e.age < delay)))
    ∧ (∀ e : FileEntry, endsWithL e.name.data ".txt".data = true →
        strictMatch e.name = false)
    ∧ (∀ (o : RunOracles) (backup : Bool) (sections files : List String)
        (x : String), x ∉ files →
        (run_on_subfolder o backup sections files).loc x = Loc.staging
        ∧ x ∉ (run_on_subfolder o backup sections files).quarantine_files) := by
  refine ⟨?_, ?_, ?_, txt_not_strictMatch, ?_⟩
  · intro fd delay g secs dir
    exact get_file_list_go_strict fd delay g secs _
      (fun e he => (List.mem_filter.mp he).2)
  · intro dir delay e he hs hage
    refine List.mem_filter.mpr ⟨List.mem_filter.mpr ⟨he, hs⟩, ?_⟩
    subst hage
    simp
  · intro dir delay e hage hmem
    have := (List.mem_filter.mp hmem).2
    simp only [Bool.not_eq_eq_eq_not, Bool.not_true, decide_eq_false_iff_not] at this
    exact this hage
  · intro o backup sections files x hxf
    obtain ⟨h1, h2⟩ := run_go_untouched o backup files sections.length sections 0
      (fun _ => Loc.staging) [] x hxf
    exact ⟨h1, fun habs => by simpa using h2 habs⟩

/-- Witness for `eligibility_filter_age_boundary` on a staging
directory holding `a.dat` (age 120), `b.dat` (age 5) and `c.txt`
(age 120) with threshold 120. -/
theorem eligibility_filter_age_boundary_witness :
    get_file_list "s" false 120 true (fun _ => Except.ok none) []
        [⟨"a.dat", 120⟩, ⟨"b.dat", 5⟩, ⟨"c.txt", 120⟩] = Except.ok ["s/a.dat"]
    ∧ (⟨"a.dat", 120⟩ : FileEntry) ∈
        ([⟨"a.dat", 120⟩, ⟨"b.dat", 5⟩, ⟨"c.txt", 120⟩].filter
            (fun e => strictMatch e.name)).filter (fun e => !(e.age < (120 : Int)))
    ∧ (⟨"b.dat", 5⟩ : FileEntry) ∉
        ([⟨"a.dat", 120⟩, ⟨"b.dat", 5⟩, ⟨"c.txt", 120⟩].filter
            (fun e => strictMatch e.name)).filter (fun e => !(e.age < (120 : Int)))
    ∧ strictMatch "c.txt" = false
    ∧ (run_on_subfolder ⟨fun _ _ => Except.ok true, fun _ => false, fun _ => false⟩
          true ["A"] ["s/a.dat"]).loc "s/c.txt" = Loc.staging
    ∧ "s/c.txt" ∉ (run_on_subfolder
          ⟨fun _ _ => Except.ok true, fun _ => false, fun _ => false⟩
          true ["A"] ["s/a.dat"]).quarantine_files := by
  refine ⟨by rfl, ?_, ?_, ?_, ?_⟩
  · exact eligibility_filter_age_boundary.2.1 _ 120 _ (by decide) (by rfl) rfl
  · exact eligibility_filter_age_boundary.2.2.1 _ 120 _ (by decide)
  · exact eligibility_filter_age_boundary.2.2.2.1 ⟨"c.txt", 120⟩ (by rfl)
  · exact eligibility_filter_age_boundary.2.2.2.2
      ⟨fun _ _ => Except.ok true, fun _ => false, fun _ => false⟩
      true ["A"] ["s/a.dat"] "s/c.txt" (by decide)

/-- `quarantine_file` never produces an archived or removed state. -/
theorem quarantineUpd_arch {l : String → Loc} {f x : String}
    (h : quarantineUpd l f x = Loc.archived ∨ quarantineUpd l f x = Loc.removed) :
    l x = Loc.archived ∨ l x = Loc.removed := by
  unfold quarantineUpd at h
  by_cases hc : x = f ∧ l f = Loc.staging
  · rw [if_pos hc] at h
    rcases h with h | h <;> exact absurd h (by simp)
  · rwa [if_neg hc] at h

/-- A backup/remove move sets archived/removed only at its own file. -/
theorem moveUpd_arch {l : String → Loc} {f x : String} {t : Loc}
    (h : moveUpd l f t x = Loc.archived ∨ moveUpd l f t x = Loc.removed) :
    (l x = Loc.archived ∨ l x = Loc.removed) ∨ x = f := by
  unfold moveUpd at h
  by_cases hc : x = f ∧ l f = Loc.staging
  · exact Or.inr hc.1
  · rw [if_neg hc] at h
    exact Or.inl h

/-- Without the post-action flag, the file loop never archives or
removes a file. -/
theorem processFiles_arch_nonpost (u : String → Except PyErr Bool)
    (bf : String → Bool) (b : Bool) :
    ∀ (files : List String) (loc : String → Loc) (tried sent qf : List String)
      (x : String),
      ((processFiles u bf b false files loc tried sent qf).1 x = Loc.archived
       ∨ (processFiles u bf b false files loc tried sent qf).1 x = Loc.removed) →
      (loc x = Loc.archived ∨ loc x = Loc.removed) := by
  intro files
  induction files with
  | nil => intro loc tried sent qf x h; exact h
  | cons file rest ih =>
    intro loc tried sent qf x h
    simp only [processFiles] at h
    split at h
    · simp only [Bool.false_eq_true, if_false] at h
      exact ih _ _ _ _ x h
    · exact quarantineUpd_arch (ih _ _ _ _ x h)
    · exact quarantineUpd_arch (ih _ _ _ _ x h)

/-- With the post-action flag, a file that ends archived or removed had
a `True` upload result in this very loop. -/
theorem processFiles_arch_post (u : String → Except PyErr Bool)
    (bf : String → Bool) (b : Bool) :
    ∀ (files : List String) (loc : String → Loc) (tried sent qf : List String)
      (x : String),
      ((processFiles u bf b true files loc tried sent qf).1 x = Loc.archived
       ∨ (processFiles u bf b true files loc tried sent qf).1 x = Loc.removed) →
      (loc x = Loc.archived ∨ loc x = Loc.removed) ∨ u x = Except.ok true := by
  intro files
  induction files with
  | nil => intro loc tried sent qf x h; exact Or.inl h
  | cons file rest ih =>
    intro loc tried sent qf x h
    simp only [processFiles] at h
    split at h
    next bv heq =>
      simp only [if_true] at h
      split at h
      · split at h
        · rcases ih _ _ _ _ x h with h1 | h1
          · exact Or.inl (quarantineUpd_arch h1)
          · exact Or.inr h1
        · rcases ih _ _ _ _ x h with h1 | h1
          · rcases moveUpd_arch h1 with h2 | h2
            · exact Or.inl h2
            · exact Or.inr (h2 ▸ heq)
          · exact Or.inr h1
      · rcases ih _ _ _ _ x h with h1 | h1
        · rcases moveUpd_arch h1 with h2 | h2
          · exact Or.inl h2
          · exact Or.inr (h2 ▸ heq)
        · exact Or.inr h1
    next heq =>
      rcases ih _ _ _ _ x h with h1 | h1
      · exact Or.inl (quarantineUpd_arch h1)
      · exact Or.inr h1
    next e heq =>
      rcases ih _ _ _ _ x h with h1 | h1
      · exact Or.inl (quarantineUpd_arch h1)
      · exact Or.inr h1

/-- Across the destination loop, a file can only become archived or
removed in the iteration whose running count equals the section total,
with a `True` upload result there. -/
theorem run_go_arch (o : RunOracles) (backup : Bool) (files : List String)
    (total : Nat) :
    ∀ (secs : List String) (idx : Nat) (loc : String → Loc)
      (qf : List String) (x : String),
      ((run_go o backup files total secs idx loc qf).2.2.1 x = Loc.archived
       ∨ (run_go o backup files total secs idx loc qf).2.2.1 x = Loc.removed) →
      (loc x = Loc.archived ∨ loc x = Loc.removed)
      ∨ ∃ j, ∃ hj : j < secs.length, idx + j + 1 = total
          ∧ o.upload (secs.get ⟨j, hj⟩) x = Except.ok true := by
  intro secs
  induction secs with
  | nil => intro idx loc qf x h; exact Or.inl h
  | cons sect rest ih =>
    intro idx loc qf x h
    simp only [run_go] at h
    by_cases ho : o.openFail sect
    · rw [if_pos ho] at h
      exact Or.inl h
    · rw [if_neg ho] at h
      rcases ih (idx + 1) _ _ x h with h1 | ⟨j, hj, hjt, hju⟩
      · by_cases hT : idx + 1 = total
        · have hd : decide (idx + 1 = total) = true := decide_eq_true hT
          rw [hd] at h1
          rcases processFiles_arch_post (o.upload sect) o.backupFail backup
            files loc [] [] qf x h1 with h2 | h2
          · exact Or.inl h2
          · exact Or.inr ⟨0, by simp, by simpa using hT, h2⟩
        · have hd : decide (idx + 1 = total) = false := decide_eq_false hT
          rw [hd] at h1
          exact Or.inl (processFiles_arch_nonpost (o.upload sect) o.backupFail
            backup files loc [] [] qf x h1)
      · refine Or.inr ⟨j + 1, by simpa using Nat.succ_lt_succ hj, by omega, ?_⟩
        simpa using hju

/-- C2 (counterexample): two destinations `A` then `B`, one staged file;
the upload to `A` returns `False` and the upload to `B` returns `True`
(the audit lists record exactly that).  After the run the file is in
quarantine — `A`'s failure moved it there and the post-action's
`os.path.exists` guard then skips the archive move — not
archived/removed as the claim states. -/
theorem postaction_failed_first_dest_cx :
    (run_on_subfolder
        ⟨fun s f => if s = "A" ∧ f = "st/f.dat" then Except.ok false
                    else Except.ok true,
         fun _ => false, fun _ => false⟩ true ["A", "B"] ["st/f.dat"]).audits
      = [⟨"A", ["st/f.dat"], []⟩, ⟨"B", ["st/f.dat"], ["st/f.dat"]⟩]
    ∧ (run_on_subfolder
        ⟨fun s f => if s = "A" ∧ f = "st/f.dat" then Except.ok false
                    else Except.ok true,
         fun _ => false, fun _ => false⟩ true ["A", "B"] ["st/f.dat"]).loc
        "st/f.dat" = Loc.quarantined
    ∧ Loc.quarantined ≠ Loc.archived ∧ Loc.quarantined ≠ Loc.removed :=
  ⟨by rfl, by rfl, by decide, by decide⟩

/-- C2 (amended): the archive-or-remove post-action fires for a
successfully uploaded file only when the current destination is the
last of the configured sequence — any file that ends archived or
removed had a `True` upload at the last section — regardless of earlier
destinations' outcomes; but in the two-destination quirk where `A`
fails and `B` succeeds, the file was already quarantined by `A`'s
failure handling, so the post-action's exists-guard leaves it in
quarantine rather than archiving/removing it. -/
theorem postaction_only_on_last_destination :
    (∀ (o : RunOracles) (backup : Bool) (sections files : List String)
        (x : String),
      ((run_on_subfolder o backup sections files).loc x = Loc.archived
       ∨ (run_on_subfolder o backup sections files).loc x = Loc.removed) →
      ∃ last, sections.getLast? = some last ∧ o.upload last x = Except.ok true)
    ∧ (run_on_subfolder
        ⟨fun s f => if s = "A" ∧ f = "st/f.dat" then Except.ok false
                    else Except.ok true,
         fun _ => false, fun _ => false⟩ true ["A", "B"] ["st/f.dat"]).loc
        "st/f.dat" = Loc.quarantined := by
  constructor
  · intro o backup sections files x h
    rcases run_go_arch o backup files sections.length sections 0
        (fun _ => Loc.staging) [] x h with h1 | ⟨j, hj, hjt, hju⟩
    · rcases h1 with h1 | h1 <;> exact absurd h1 (by simp)
    · refine ⟨sections.get ⟨j, hj⟩, ?_, hju⟩
      rw [List.getLast?_eq_getElem?]
      have hjlen : j = sections.length - 1 := by omega
      subst hjlen
      simp
  · rfl

/-- Witness for `postaction_only_on_last_destination`: when both
uploads succeed the file is archived, and the theorem recovers that the
last section `B` reported success for it. -/
theorem postaction_only_on_last_destination_witness :
    ((run_on_subfolder ⟨fun _ _ => Except.ok true, fun _ => false, fun _ => false⟩
        true ["A", "B"] ["st/f.dat"]).loc "st/f.dat" = Loc.archived
      ∨ (run_on_subfolder ⟨fun _ _ => Except.ok true, fun _ => false, fun _ => false⟩
        true ["A", "B"] ["st/f.dat"]).loc "st/f.dat" = Loc.removed)
    ∧ ∃ last, (["A", "B"] : List String).getLast? = some last
        ∧ (⟨fun _ _ => Except.ok true, fun _ => false, fun _ => false⟩
            : RunOracles).upload last "st/f.dat" = Except.ok true :=
  ⟨Or.inl (by rfl),
   postaction_only_on_last_destination.1
     ⟨fun _ _ => Except.ok true, fun _ => false, fun _ => false⟩
     true ["A", "B"] ["st/f.dat"] "st/f.dat" (Or.inl (by rfl))⟩

/-- The file loop preserves `sent ⊑ tried`: every file is appended to
`tried` before its upload and to `sent` only on a `True` result. -/
theorem processFiles_sublist (u : String → Except PyErr Bool)
    (bf : String → Bool) (b sp : Bool) :
    ∀ (files : List String) (loc : String → Loc) (tried sent qf : List String),
      sent.Sublist tried →
      ((processFiles u bf b sp files loc tried sent qf).2.2.1).Sublist
        ((processFiles u bf b sp files loc tried sent qf).2.1) := by
  intro files
  induction files with
  | nil => intro loc tried sent qf h; exact h
  | cons file rest ih =>
    intro loc tried sent qf h
    have happ : (sent ++ [file]).Sublist (tried ++ [file]) :=
      h.append (List.Sublist.refl [file])
    have hskip : sent.Sublist (tried ++ [file]) :=
      h.trans (List.sublist_append_left tried [file])
    simp only [processFiles]
    repeat' split
    all_goals first
      | exact ih _ _ _ _ happ
      | exact ih _ _ _ _ hskip

/-- Every audit produced by the destination loop satisfies
`sent ⊑ tried`. -/
theorem run_go_audits (o : RunOracles) (backup : Bool) (files : List String)
    (total : Nat) :
    ∀ (secs : List String) (idx : Nat) (loc : String → Loc) (qf : List String)
      (a : SectionAudit), a ∈ (run_go o backup files total secs idx loc qf).1 →
      a.sent.Sublist a.tried := by
  intro secs
  induction secs with
  | nil => intro idx loc qf a ha; simp [run_go] at ha
  | cons sect rest ih =>
    intro idx loc qf a ha
    simp only [run_go] at ha
    by_cases ho : o.openFail sect
    · rw [if_pos ho] at ha
      simp at ha
    · rw [if_neg ho] at ha
      rcases List.mem_cons.mp ha with ha | ha
      · subst ha
        exact processFiles_sublist (o.upload sect) o.backupFail backup
          (decide (idx + 1 = total)) files loc [] [] qf (List.Sublist.refl [])
      · exact ih (idx + 1) _ _ a ha

/-- For `sent ⊆ tried`, `diff_of_lists tried sent` is exactly the
occurrences in `tried` of files missing from `sent`. -/
theorem diff_of_lists_eq_filter {l1 l2 : List String}
    (h : ∀ x ∈ l2, x ∈ l1) :
    diff_of_lists l1 l2 = l1.filter (fun x => decide (x ∉ l2)) := by
  unfold diff_of_lists
  rw [List.filter_append]
  have h2 : l2.filter (fun i => decide (i ∉ l1 ∨ i ∉ l2)) = [] := by
    rw [List.filter_eq_nil_iff]
    intro a ha
    simp only [decide_eq_true_eq]
    rintro (h' | h')
    · exact h' (h a ha)
    · exact h' ha
  rw [h2, List.append_nil]
  apply List.filter_congr
  intro x hx
  apply decide_eq_decide.mpr
  constructor
  · rintro (h' | h')
    · exact absurd hx h'
    · exact h'
  · exact Or.inr

/-- C10: for every destination section of any run, the recorded
`did_sent` sequence is a subsequence of the recorded `try_to_send`
sequence, and the reconciliation diff `diff_of_lists tried sent` is
exactly the attempted-but-not-sent occurrences. -/
theorem sent_sublist_tried_and_diff :
    ∀ (o : RunOracles) (backup : Bool) (sections files : List String)
      (a : SectionAudit),
      a ∈ (run_on_subfolder o backup sections files).audits →
      a.sent.Sublist a.tried
      ∧ diff_of_lists a.tried a.sent
          = a.tried.filter (fun x => decide (x ∉ a.sent)) := by
  intro o backup sections files a ha
  have hsub : a.sent.Sublist a.tried :=
    run_go_audits o backup files sections.length sections 0
      (fun _ => Loc.staging) [] a ha
  exact ⟨hsub, diff_of_lists_eq_filter (fun x hx => hsub.subset hx)⟩

/-- Witness for `sent_sublist_tried_and_diff` on the two-destination
run where `A` fails and `B` succeeds. -/
theorem sent_sublist_tried_and_diff_witness :
    (⟨"A", ["st/f.dat"], []⟩ : SectionAudit) ∈ (run_on_subfolder
        ⟨fun s f => if s = "A" ∧ f = "st/f.dat" then Except.ok false
                    else Except.ok true,
         fun _ => false, fun _ => false⟩ true ["A", "B"] ["st/f.dat"]).audits
    ∧ (List.Sublist ([] : List String) ["st/f.dat"]
      ∧ diff_of_lists ["st/f.dat"] []
          = ["st/f.dat"].filter (fun x => decide (x ∉ ([] : List String)))) :=
  ⟨by decide, sent_sublist_tried_and_diff
    ⟨fun s f => if s = "A" ∧ f = "st/f.dat" then Except.ok false
                else Except.ok true,
     fun _ => false, fun _ => false⟩ true ["A", "B"] ["st/f.dat"]
    ⟨"A", ["st/f.dat"], []⟩ (by decide)⟩

end FtpRelay
